import Mathlib

/-!
Verification of the urusai crawler core (src/crawler/crawler.go).

The crawler's own code (accept, normalize, extractLinks, fetch, Crawl,
depthFirst, isTimeoutReached) is embedded shallowly below.  External
collaborators from the Go standard library (strings.HasPrefix,
strings.Contains, net/url parsing and reference resolution, the HTML
tokenizer, net/http, the PRNG, the clock and the cancellable context) are
not part of this repository; they are modelled from the specification's
description of the interface the core needs from them, and each such model
is marked in its doc comment.
-/

namespace Urusai

/-! ## Go string helpers (models of strings.HasPrefix / strings.Contains) -/

/-- Modelled from the spec: Go strings.HasPrefix, used by normalize for the
scheme-relative check.  True iff the second string is a prefix of the first. -/
def hasPrefixGo (s pre : String) : Bool :=
  pre.toList.isPrefixOf s.toList

/-- Helper for goContains: does the needle occur at some position of the
haystack (given as char lists)? -/
def goContainsAux (needle : List Char) : List Char → Bool
  | [] => needle.isEmpty
  | c :: rest => needle.isPrefixOf (c :: rest) || goContainsAux needle rest

/-- Modelled from the spec: Go strings.Contains, used by the blacklist
filter ("simple substring containment, not pattern matching").  True iff
sub occurs as a contiguous substring of s at any position. -/
def goContains (s sub : String) : Bool :=
  goContainsAux sub.toList s.toList

/-! ## URL model

Modelled from the spec: the net/url external collaborator ("parsed as a URI
reference and resolved against the base URL using standard relative-reference
resolution").  A URI reference is reduced to the four components the crawler
needs: scheme, presence of an authority, the authority text and the path.
Query and fragment are folded into the path text; dot-segment normalization
is not modelled (no claim depends on it). -/

structure URLRef where
  scheme : String
  hasAuth : Bool
  authority : String
  path : String
deriving DecidableEq

/-- Splits a leading URI scheme: consumes alphabetic characters up to a
colon.  Returns none when there is no scheme (first non-alphabetic character
reached before a colon, or no colon at all). -/
def schemeSplit (acc : List Char) : List Char → Option (List Char × List Char)
  | [] => none
  | c :: rest =>
    if c = ':' then (if acc.isEmpty then none else some (acc, rest))
    else if c.isAlpha then schemeSplit (acc ++ [c]) rest
    else none

/-- Splits authority and path after the scheme: a leading "//" starts an
authority running up to the next slash; otherwise everything is path. -/
def parseAfterScheme (l : List Char) : Bool × List Char × List Char :=
  match l with
  | '/' :: '/' :: rest =>
    (true, rest.takeWhile (fun c => c ≠ '/'), rest.dropWhile (fun c => c ≠ '/'))
  | _ => (false, [], l)

/-- Modelled from the spec: Go url.Parse.  Fails (like Go) on strings
containing control characters or spaces; otherwise splits scheme, authority
and path. -/
def urlParse (s : String) : Option URLRef :=
  let l := s.toList
  if l.any (fun c => c.toNat < 33) then none
  else
    match schemeSplit [] l with
    | some (sch, rest) =>
      let ap := parseAfterScheme rest
      some ⟨String.mk sch, ap.1, String.mk ap.2.1, String.mk ap.2.2⟩
    | none =>
      let ap := parseAfterScheme l
      some ⟨"", ap.1, String.mk ap.2.1, String.mk ap.2.2⟩

/-- Modelled from the spec: success of Go url.ParseRequestURI as used by
accept, "strict absolute-URI syntax validation": the candidate parses and
carries a scheme. -/
def parseRequestURIOk (s : String) : Bool :=
  match urlParse s with
  | some r => r.scheme != ""
  | none => false

/-- The directory part of a path: everything up to and including the last
slash. -/
def dirChars (p : List Char) : List Char :=
  (p.reverse.dropWhile (fun c => c ≠ '/')).reverse

/-- Modelled from the spec: RFC 3986 path merging for relative references. -/
def mergePaths (baseHasAuth : Bool) (basePath refPath : String) : String :=
  if baseHasAuth && basePath == "" then "/" ++ refPath
  else String.mk (dirChars basePath.toList) ++ refPath

/-- Modelled from the spec: Go URL.ResolveReference, "standard
relative-reference resolution" (RFC 3986 section 5.2, without dot-segment
normalization). -/
def resolveReference (base ref : URLRef) : URLRef :=
  if ref.scheme != "" then ref
  else if ref.hasAuth then { ref with scheme := base.scheme }
  else if ref.path == "" then base
  else if hasPrefixGo ref.path "/" then { base with path := ref.path }
  else { base with path := mergePaths base.hasAuth base.path ref.path }

/-- Modelled from the spec: Go URL.String on the modelled components. -/
def urlToString (u : URLRef) : String :=
  (if u.scheme != "" then u.scheme ++ ":" else "") ++
    (if u.hasAuth then "//" ++ u.authority else "") ++ u.path

/-! ## Link Filter (crawler.go, accept, lines 140-154) -/

/-- Embeds accept: validation, blacklist and dedup rules, in source order:
empty string, visited membership, blacklist substrings, then absolute-URI
validation (url.ParseRequestURI succeeding).  The URI validator is a
parameter so that the filter's structure is independent of the modelled
stdlib validator; the crawler instantiates it with parseRequestURIOk. -/
def accept (blacklist : List String) (validURI : String → Bool)
    (visited : List String) (link : String) : Bool :=
  if link = "" then false
  else if visited.contains link then false
  else if blacklist.any (fun blk => goContains link blk) then false
  else validURI link

/-! ## Link normalization (crawler.go, normalize, lines 128-137) -/

/-- Embeds normalize: a scheme-relative href ("//...") gets the base URL's
scheme and a colon prefixed; any other href is parsed as a URI reference
(empty string on parse failure) and resolved against the base. -/
def normalize (href : String) (base : URLRef) : String :=
  if hasPrefixGo href "//" then base.scheme ++ ":" ++ href
  else
    match urlParse href with
    | none => ""
    | some ref => urlToString (resolveReference base ref)

/-- Lifts normalize to an optional base.  In Go the base comes from
url.Parse with the error ignored; a nil base would make normalize panic on
dereference, and every claim below assumes a parseable base, where this
branch never arises.  The none branch discards the link. -/
def normalizeOpt (href : String) (base : Option URLRef) : String :=
  match base with
  | some b => normalize href b
  | none => ""

/-! ## Link Extractor (crawler.go, extractLinks, lines 100-125)

The golang.org/x/net/html tokenizer is an external collaborator; its output
is modelled as a list of tokens: an error token (at which the tokenizer
stops, returning whatever was collected), an opening tag carrying whether it
is an anchor and its attribute list, or any other token. -/

inductive Tok where
  | errorTok : Tok
  | startTag : Bool → List (String × String) → Tok
  | otherTok : Tok
deriving DecidableEq

/-- One anchor tag's contribution: every attribute with key href is
normalized against the base and kept exactly when accept holds, in
attribute order (the Go loop walks all attributes). -/
def anchorLinks (blacklist visited : List String) (base : Option URLRef)
    (attrs : List (String × String)) : List String :=
  attrs.filterMap (fun kv =>
    if kv.1 = "href" then
      let href := normalizeOpt kv.2 base
      if accept blacklist parseRequestURIOk visited href then some href else none
    else none)

/-- Embeds the extractLinks token loop: walk the token stream, stop at the
first error token (or exhausted stream) returning what was collected, and
collect filtered hrefs from anchor start tags. -/
def extractLinksAux (blacklist visited : List String) (base : Option URLRef) :
    List Tok → List String
  | [] => []
  | Tok.errorTok :: _ => []
  | Tok.startTag isA attrs :: rest =>
    (if isA then anchorLinks blacklist visited base attrs else []) ++
      extractLinksAux blacklist visited base rest
  | Tok.otherTok :: rest => extractLinksAux blacklist visited base rest

/-- Embeds extractLinks: parses the base (error ignored, as in the source)
and runs the token loop. -/
def extractLinks (blacklist visited : List String) (toks : List Tok)
    (base : String) : List String :=
  extractLinksAux blacklist visited (urlParse base) toks

/-- The prefix of a token stream before the first error token. -/
def upToError (toks : List Tok) : List Tok :=
  toks.takeWhile (fun t => t ≠ Tok.errorTok)

/-! ## Fetcher (crawler.go, fetch, lines 81-96)

The network is an external collaborator.  The two fallible stdlib calls are
the request construction (http.NewRequestWithContext) and the round trip
(client.Do); each is modelled by its outcome, passed as an argument.  A
transport failure and a context cancellation during the call both surface
as a client.Do error.  A response carries a status code and a byte stream;
reading through io.LimitReader(resp.Body, 1<<20) keeps at most 2^20 bytes. -/

structure HttpResp where
  statusCode : Nat
  body : List Nat

/-- Embeds fetch: propagate a request-construction error, then a transport
or cancellation error, else return the body capped at 1 MiB.  The status
code is only logged, never inspected. -/
def fetchGo (newReq : Except String Unit) (doResp : Except String HttpResp) :
    Except String (List Nat) :=
  match newReq with
  | Except.error e => Except.error e
  | Except.ok _ =>
    match doResp with
    | Except.error e => Except.error e
    | Except.ok resp => Except.ok (resp.body.take (1 <<< 20))

/-! ## Timeout check (crawler.go, isTimeoutReached, lines 184-189) -/

/-- Embeds isTimeoutReached over an explicit elapsed wall-clock time in
nanoseconds: false when the configured timeout is zero (unbounded),
otherwise true once the elapsed time exceeds Timeout seconds. -/
def isTimeoutReached (timeout : Nat) (elapsedNs : Nat) : Bool :=
  if timeout = 0 then false else decide (elapsedNs > timeout * 1000000000)

/-! ## Configuration (config.Config fields the crawler reads) -/

structure Config where
  rootURLs : List String
  userAgents : List String
  blacklistedURLs : List String
  maxDepth : Int
  timeout : Nat
  minSleep : Int
  maxSleep : Int
deriving DecidableEq

/-! ## Walk Controller state machine (crawler.go, Crawl and depthFirst)

The crawler's mutable fields are the link queue and the visited set; the
three external oracles it samples are modelled by index-addressed streams,
with the number of samples drawn so far kept in the state:

  - stopF i: the value of (ctx.Err() != nil || c.isTimeoutReached()) at the
    i-th evaluation of that stop condition.  Both disjuncts are monotone in
    real time (a Go context never un-cancels and time.Since never
    decreases), so claims about cancellation assume stopF monotone.
  - randF i: the i-th value drawn from the PRNG; rand.Intn(n) is modelled
    as randF i % n.
  - fetchF i url: the outcome of the i-th HTTP fetch, of url: none for a
    fetch error (request construction, transport or cancellation), or the
    tokenized body.  The user-agent draw inside fetch consumes one PRNG
    value, as in the source.

A run also emits a trace of events: fetches issued, insertions into the
visited set, enqueues into the link queue, sleeps with their duration, stop
condition checks with their value, and a snapshot of (queue, visited) at
the head of each loop iteration and each recursive walk step. -/

structure CState where
  links : List String
  visited : List String
  nChecks : Nat
  nRand : Nat
  nFetch : Nat
deriving DecidableEq

structure Env where
  stopF : Nat → Bool
  randF : Nat → Nat
  fetchF : Nat → String → Option (List Tok)

inductive Ev where
  | fetch : String → Ev
  | visit : String → Ev
  | enqueue : String → Ev
  | sleep : Int → Ev
  | check : Bool → Ev
  | snap : List String → List String → Ev
deriving DecidableEq

/-- Draws rand.Intn(n): the next PRNG value reduced mod n. -/
def intn (env : Env) (st : CState) (n : Nat) : Nat × CState :=
  (env.randF st.nRand % n, { st with nRand := st.nRand + 1 })

/-- Samples the stop condition ctx.Err() != nil || c.isTimeoutReached(). -/
def doCheck (env : Env) (st : CState) : Bool × CState :=
  (env.stopF st.nChecks, { st with nChecks := st.nChecks + 1 })

/-- One call of c.fetch inside the walk: draws a random user agent, then
performs the HTTP round trip, whose outcome (error, or tokenized body) the
fetch oracle supplies.  A request-construction failure is folded into the
oracle's none outcome; in Go it would precede the user-agent draw, so this
model draws one PRNG value more in that case, which only shifts the indices
of an arbitrary oracle and affects no claim. -/
def doFetch (cfg : Config) (env : Env) (st : CState) (url : String) :
    Option (List Tok) × CState :=
  let pick := intn env st cfg.userAgents.length
  (env.fetchF pick.2.nFetch url, { pick.2 with nFetch := pick.2.nFetch + 1 })

/-- The size of the sleep interval, MaxSleep-MinSleep+1 (the argument the
source passes to rand.Intn). -/
def sleepSpan (cfg : Config) : Nat :=
  (cfg.maxSleep - cfg.minSleep + 1).toNat

/-- The sleep duration produced from one PRNG value r, exactly the source
expression rand.Intn(MaxSleep-MinSleep+1)+MinSleep in microseconds. -/
def sleepDraw (cfg : Config) (r : Nat) : Int :=
  ((r % sleepSpan cfg : Nat) : Int) + cfg.minSleep

/-- Embeds depthFirst (crawler.go lines 157-182).  The Go recursion carries
depth and returns when depth >= MaxDepth; it is rendered structurally on
remaining = (MaxDepth - depth).toNat, which the guard makes zero exactly
when the source guard fires (depthFirst below restores the source
signature).  Body, in source order: stop guard (the stop condition is only
sampled when the depth guard fails, mirroring the short-circuit ||), empty
queue guard, random dequeue, insertion into visited, fetch (error ends the
branch), extraction and append of new links, sleep, recursion. -/
def depthFirstAux (cfg : Config) (env : Env) : Nat → CState → CState × List Ev
  | 0, st => (st, [Ev.snap st.links st.visited])
  | rem + 1, st =>
    let c1 := doCheck env st
    if c1.1 then (c1.2, [Ev.snap st.links st.visited, Ev.check true])
    else if c1.2.links.length = 0 then
      (c1.2, [Ev.snap st.links st.visited, Ev.check false])
    else
      let pick := intn env c1.2 c1.2.links.length
      let st1 := pick.2
      let idx := pick.1
      let target := st1.links.getD idx ""
      let st2 := { st1 with links := st1.links.eraseIdx idx,
                            visited := target :: st1.visited }
      let fr := doFetch cfg env st2 target
      let st3 := fr.2
      match fr.1 with
      | none =>
        (st3, [Ev.snap st.links st.visited, Ev.check false, Ev.visit target,
               Ev.fetch target])
      | some toks =>
        let newLinks := extractLinks cfg.blacklistedURLs st3.visited toks target
        let st4 := { st3 with links := st3.links ++ newLinks }
        let sl := intn env st4 (sleepSpan cfg)
        let d := (sl.1 : Int) + cfg.minSleep
        let rest := depthFirstAux cfg env rem sl.2
        (rest.1, Ev.snap st.links st.visited :: Ev.check false ::
          Ev.visit target :: Ev.fetch target ::
          (newLinks.map Ev.enqueue ++ Ev.sleep d :: rest.2))

/-- depthFirst with the source signature: current depth as an integer,
guard depth >= cfg.maxDepth. -/
def depthFirst (cfg : Config) (env : Env) (st : CState) (depth : Int) :
    CState × List Ev :=
  depthFirstAux cfg env (cfg.maxDepth - depth).toNat st

/-- Embeds the root segment of one Crawl loop iteration (crawler.go lines
64-74): pick a random root, fetch it (an error restarts the loop), replace
the queue by the links extracted from the root page, and report whether the
walk is entered (the new queue is non-empty).  The visited set is neither
consulted nor changed here. -/
def seedFromRoot (cfg : Config) (env : Env) (st : CState) :
    Bool × CState × List Ev :=
  let pick := intn env st cfg.rootURLs.length
  let root := cfg.rootURLs.getD pick.1 ""
  let fr := doFetch cfg env pick.2 root
  match fr.1 with
  | none => (false, fr.2, [Ev.fetch root])
  | some toks =>
    let newLinks := extractLinks cfg.blacklistedURLs fr.2.visited toks root
    (!newLinks.isEmpty, { fr.2 with links := newLinks },
      Ev.fetch root :: newLinks.map Ev.enqueue)

/-- Embeds the Crawl outer loop (crawler.go lines 59-77), with explicit
fuel bounding the number of iterations observed (the Go loop runs until a
stop condition fires): check the stop condition, seed from a random root,
and enter the depth-first walk at depth 0 when the seeded queue is
non-empty. -/
def crawlLoop (cfg : Config) (env : Env) : Nat → CState → CState × List Ev
  | 0, st => (st, [])
  | fuel + 1, st =>
    let c1 := doCheck env st
    if c1.1 then (c1.2, [Ev.snap st.links st.visited, Ev.check true])
    else
      let sr := seedFromRoot cfg env c1.2
      if sr.1 then
        let df := depthFirst cfg env sr.2.1 0
        let rest := crawlLoop cfg env fuel df.1
        (rest.1, Ev.snap st.links st.visited :: Ev.check false ::
          (sr.2.2 ++ df.2 ++ rest.2))
      else
        let rest := crawlLoop cfg env fuel sr.2.1
        (rest.1, Ev.snap st.links st.visited :: Ev.check false ::
          (sr.2.2 ++ rest.2))

/-- The state NewCrawler hands to Crawl: empty queue, empty visited set,
no oracle samples drawn. -/
def initState : CState :=
  ⟨[], [], 0, 0, 0⟩

/-- One crawl session: Crawl run from the fresh state. -/
def crawl (cfg : Config) (env : Env) (fuel : Nat) : CState × List Ev :=
  crawlLoop cfg env fuel initState

/-! ## Trace predicates -/

/-- No event satisfying q occurs anywhere after an event satisfying p. -/
def NoAfter (p q : Ev → Prop) : List Ev → Prop
  | [] => True
  | e :: tr => NoAfter p q tr ∧ (p e → ∀ x ∈ tr, ¬ q x)

/-- A URL inserted into the visited set is never enqueued afterwards. -/
def NoEnqueueAfterVisit (tr : List Ev) : Prop :=
  ∀ u, NoAfter (fun e => e = Ev.visit u) (fun e => e = Ev.enqueue u) tr

/-- After a stop condition check that fired, no fetch is ever issued. -/
def NoFetchAfterStop (tr : List Ev) : Prop :=
  NoAfter (fun e => e = Ev.check true) (fun e => ∃ u, e = Ev.fetch u) tr

/-- Every sleep is preceded by the visit and the fetch of a dequeued URL;
in particular no sleep precedes the first fetch of the session. -/
def SleepAfterVisit (tr : List Ev) : Prop :=
  ∀ t1 d t2, tr = t1 ++ Ev.sleep d :: t2 →
    ∃ u, Ev.visit u ∈ t1 ∧ Ev.fetch u ∈ t1

/-- A stop stream that never goes back from true to false, as ctx.Err and
isTimeoutReached do in real time. -/
def MonotoneStop (f : Nat → Bool) : Prop :=
  ∀ i j, i ≤ j → f i = true → f j = true

/-- How many times url u is fetched in a trace. -/
def countFetch (u : String) (tr : List Ev) : Nat :=
  tr.countP (fun e => decide (e = Ev.fetch u))

/-- Decidable form of claim C1 on one trace: after each insertion of u into
the visited set, u is fetched at most once. -/
def noDoubleFetchAfterVisitB : List Ev → Bool
  | [] => true
  | Ev.visit u :: tr => decide (countFetch u tr ≤ 1) && noDoubleFetchAfterVisitB tr
  | _ :: tr => noDoubleFetchAfterVisitB tr

/-- Decidable form of the enqueue half of claim C1 on one trace. -/
def noEnqueueAfterVisitB : List Ev → Bool
  | [] => true
  | Ev.visit u :: tr => decide (Ev.enqueue u ∉ tr) && noEnqueueAfterVisitB tr
  | _ :: tr => noEnqueueAfterVisitB tr

/-- Decidable form of claim C2 on one trace: at every recorded state of the
session, no URL is both in the link queue and in the visited set. -/
def snapsDisjointB : List Ev → Bool
  | [] => true
  | Ev.snap links visited :: tr =>
    links.all (fun l => !visited.contains l) && snapsDisjointB tr
  | _ :: tr => snapsDisjointB tr

/-! ## Generic trace lemmas -/

theorem noAfter_nil {p q : Ev → Prop} : NoAfter p q [] :=
  trivial

theorem noAfter_of_not_p {p q : Ev → Prop} :
    ∀ {tr : List Ev}, (∀ e ∈ tr, ¬ p e) → NoAfter p q tr
  | [], _ => trivial
  | e :: tr, h =>
    ⟨noAfter_of_not_p (fun x hx => h x (List.mem_cons_of_mem e hx)),
     fun hp => absurd hp (h e (List.mem_cons_self e tr))⟩

theorem noAfter_append {p q : Ev → Prop} :
    ∀ {a b : List Ev}, NoAfter p q a → NoAfter p q b →
      ((∃ e ∈ a, p e) → ∀ x ∈ b, ¬ q x) → NoAfter p q (a ++ b)
  | [], _, _, hb, _ => hb
  | e :: a, b, ha, hb, hc => by
    refine ⟨noAfter_append ha.1 hb ?_, ?_⟩
    · rintro ⟨x, hx, hpx⟩
      exact hc ⟨x, List.mem_cons_of_mem e hx, hpx⟩
    · intro hp x hx
      rcases List.mem_append.1 hx with hxa | hxb
      · exact ha.2 hp x hxa
      · exact hc ⟨e, List.mem_cons_self e a, hp⟩ x hxb

theorem noAfter_cons_not_p {p q : Ev → Prop} {e : Ev} {tr : List Ev}
    (he : ¬ p e) (h : NoAfter p q tr) : NoAfter p q (e :: tr) :=
  ⟨h, fun hp => absurd hp he⟩

theorem sleepAfter_of_no_sleep {tr : List Ev}
    (h : ∀ e ∈ tr, ∀ d, e ≠ Ev.sleep d) : SleepAfterVisit tr := by
  intro t1 d t2 heq
  exact absurd rfl (h (Ev.sleep d) (heq ▸ List.mem_append_right t1 (List.mem_cons_self _ _)) d)

theorem sleepAfter_head {A rest : List Ev}
    (h1 : ∃ u, Ev.visit u ∈ A ∧ Ev.fetch u ∈ A)
    (h2 : ∀ e ∈ A, ∀ d, e ≠ Ev.sleep d) : SleepAfterVisit (A ++ rest) := by
  intro t1 d t2 heq
  rcases List.append_eq_append_iff.1 heq.symm with ⟨k, hk1, hk2⟩ | ⟨k, hk1, hk2⟩
  · cases k with
    | nil =>
      rcases h1 with ⟨u, hu1, hu2⟩
      rw [List.append_nil] at hk1
      exact ⟨u, hk1 ▸ hu1, hk1 ▸ hu2⟩
    | cons e k2 =>
      cases hk2
      exact absurd rfl (h2 (Ev.sleep d)
        (hk1 ▸ List.mem_append_right t1 (List.mem_cons_self _ _)) d)
  · rcases h1 with ⟨u, hu1, hu2⟩
    exact ⟨u, hk1 ▸ List.mem_append_left k hu1, hk1 ▸ List.mem_append_left k hu2⟩

theorem sleepAfter_prepend_no_sleep {A rest : List Ev}
    (h2 : ∀ e ∈ A, ∀ d, e ≠ Ev.sleep d)
    (hrest : SleepAfterVisit rest) : SleepAfterVisit (A ++ rest) := by
  intro t1 d t2 heq
  rcases List.append_eq_append_iff.1 heq.symm with ⟨k, hk1, hk2⟩ | ⟨k, hk1, hk2⟩
  · cases k with
    | nil =>
      rcases hrest [] d t2 (by simpa using hk2.symm) with ⟨u, hu, _⟩
      exact absurd hu (List.not_mem_nil _)
    | cons e k2 =>
      cases hk2
      exact absurd rfl (h2 (Ev.sleep d)
        (hk1 ▸ List.mem_append_right t1 (List.mem_cons_self _ _)) d)
  · rcases hrest k d t2 hk2 with ⟨u, hu1, hu2⟩
    exact ⟨u, hk1 ▸ List.mem_append_right A hu1, hk1 ▸ List.mem_append_right A hu2⟩

theorem sleepAfter_append {a b : List Ev}
    (ha : SleepAfterVisit a) (hb : SleepAfterVisit b) : SleepAfterVisit (a ++ b) := by
  intro t1 d t2 heq
  rcases List.append_eq_append_iff.1 heq.symm with ⟨k, hk1, hk2⟩ | ⟨k, hk1, hk2⟩
  · cases k with
    | nil =>
      rcases hb [] d t2 (by simpa using hk2.symm) with ⟨u, hu, _⟩
      exact absurd hu (List.not_mem_nil _)
    | cons e k2 =>
      cases hk2
      rcases ha t1 d k2 hk1 with ⟨u, hu1, hu2⟩
      exact ⟨u, hu1, hu2⟩
  · rcases hb k d t2 hk2 with ⟨u, hu1, hu2⟩
    exact ⟨u, hk1 ▸ List.mem_append_right a hu1, hk1 ▸ List.mem_append_right a hu2⟩

/-! ## Filter and extractor lemmas -/

theorem accept_true_not_visited {bl vis : List String} {v : String → Bool}
    {link : String} (h : accept bl v vis link = true) : link ∉ vis := by
  intro hmem
  unfold accept at h
  rw [if_neg, if_pos] at h
  · exact Bool.false_ne_true h
  · simpa using hmem
  · intro he
    rw [if_pos he] at h
    exact Bool.false_ne_true h

theorem anchorLinks_accept {bl vis : List String} {base : Option URLRef}
    {attrs : List (String × String)} {u : String}
    (h : u ∈ anchorLinks bl vis base attrs) :
    accept bl parseRequestURIOk vis u = true := by
  rcases List.mem_filterMap.1 h with ⟨kv, _, hkv⟩
  by_cases h1 : kv.1 = "href"
  · rw [if_pos h1] at hkv
    by_cases h2 : accept bl parseRequestURIOk vis (normalizeOpt kv.2 base) = true
    · rw [if_pos h2] at hkv
      cases hkv
      exact h2
    · rw [if_neg h2] at hkv
      cases hkv
  · rw [if_neg h1] at hkv
    cases hkv

theorem extractLinksAux_accept {bl vis : List String} {base : Option URLRef} :
    ∀ {toks : List Tok} {u : String}, u ∈ extractLinksAux bl vis base toks →
      accept bl parseRequestURIOk vis u = true := by
  intro toks
  induction toks with
  | nil => intro u h; cases h
  | cons t rest ih =>
    intro u h
    match t with
    | Tok.errorTok => cases h
    | Tok.otherTok => exact ih h
    | Tok.startTag isA attrs =>
      rcases List.mem_append.1 h with h1 | h2
      · by_cases ha : isA = true
        · rw [if_pos ha] at h1
          exact anchorLinks_accept h1
        · rw [if_neg ha] at h1
          cases h1
      · exact ih h2

theorem extractLinks_not_visited {bl vis : List String} {toks : List Tok}
    {base u : String} (h : u ∈ extractLinks bl vis toks base) : u ∉ vis :=
  accept_true_not_visited (extractLinksAux_accept h)

theorem extractLinksAux_stops_at_error {bl vis : List String} {base : Option URLRef} :
    ∀ toks : List Tok,
      extractLinksAux bl vis base toks = extractLinksAux bl vis base (upToError toks)
  | [] => rfl
  | Tok.errorTok :: _ => rfl
  | Tok.startTag isA attrs :: rest => by
    simp only [upToError, List.takeWhile_cons]
    norm_num [extractLinksAux]
    simpa [upToError] using @extractLinksAux_stops_at_error bl vis base rest
  | Tok.otherTok :: rest => by
    simp only [upToError, List.takeWhile_cons]
    norm_num [extractLinksAux]
    simpa [upToError] using @extractLinksAux_stops_at_error bl vis base rest

/-! ## depthFirstAux lemmas -/

theorem aux_visited_iff (cfg : Config) (env : Env) :
    ∀ (rem : Nat) (st : CState) (u : String),
      u ∈ (depthFirstAux cfg env rem st).1.visited ↔
        u ∈ st.visited ∨ Ev.visit u ∈ (depthFirstAux cfg env rem st).2 := by
  intro rem
  induction rem with
  | zero => intro st u; simp [depthFirstAux]
  | succ rem ih =>
    intro st u
    simp only [depthFirstAux, doCheck, intn, doFetch]
    split_ifs with h1 h2
    · simp
    · simp
    · split
      · simp
        tauto
      · rw [ih]
        simp
        tauto

theorem aux_enq_not_visited (cfg : Config) (env : Env) :
    ∀ (rem : Nat) (st : CState) (u : String),
      Ev.enqueue u ∈ (depthFirstAux cfg env rem st).2 → u ∉ st.visited := by
  intro rem
  induction rem with
  | zero => intro st u h; simp [depthFirstAux] at h
  | succ rem ih =>
    intro st u h
    simp only [depthFirstAux, doCheck, intn, doFetch] at h
    split_ifs at h with h1 h2
    · simp at h
    · simp at h
    · split at h
      · simp at h
      · simp at h
        rcases h with hnew | hrest
        · have := extractLinks_not_visited hnew
          intro hv
          exact this (List.mem_cons_of_mem _ hv)
        · have := ih _ u hrest
          simp at this
          intro hv
          exact this.2 hv

theorem aux_noEnqueueAfterVisit (cfg : Config) (env : Env) :
    ∀ (rem : Nat) (st : CState), NoEnqueueAfterVisit (depthFirstAux cfg env rem st).2 := by
  intro rem
  induction rem with
  | zero => intro st u; simp [depthFirstAux, NoAfter]
  | succ rem ih =>
    intro st u
    simp only [depthFirstAux, doCheck, intn, doFetch]
    split_ifs with h1 h2
    · simp [NoAfter]
    · simp [NoAfter]
    · split
      · simp [NoAfter]
      · refine noAfter_cons_not_p (by simp) (noAfter_cons_not_p (by simp) ?_)
        refine ⟨noAfter_cons_not_p (by simp) ?_, ?_⟩
        · -- NoAfter on the tail fetch :: (enqueues ++ sleep :: rest)
          refine noAfter_append (noAfter_of_not_p (by simp)) ?_ ?_
          · exact noAfter_cons_not_p (by simp) (ih _ u)
          · simp
        · -- the dequeued target is never enqueued afterwards
          intro hp x hx hq
          simp only [Ev.visit.injEq] at hp
          subst hp
          rw [hq] at hx
          simp at hx
          rcases hx with hnew | hrest
          · exact extractLinks_not_visited hnew (List.mem_cons_self _ _)
          · have := aux_enq_not_visited cfg env rem _ _ hrest
            exact absurd (List.mem_cons_self _ _) this

theorem aux_checkTrue_stop (cfg : Config) (env : Env)
    (hm : MonotoneStop env.stopF) :
    ∀ (rem : Nat) (st : CState),
      Ev.check true ∈ (depthFirstAux cfg env rem st).2 →
        env.stopF (depthFirstAux cfg env rem st).1.nChecks = true := by
  intro rem
  induction rem with
  | zero => intro st h; simp [depthFirstAux] at h
  | succ rem ih =>
    intro st h
    simp only [depthFirstAux, doCheck, intn, doFetch] at h ⊢
    split_ifs at h ⊢ with h1 h2
    · exact hm st.nChecks (st.nChecks + 1) (Nat.le_succ _) h1
    · simp at h
    · split at h
      · simp at h
      · simp at h ⊢
        exact ih _ h

theorem aux_noFetchAfterStop (cfg : Config) (env : Env) :
    ∀ (rem : Nat) (st : CState), NoFetchAfterStop (depthFirstAux cfg env rem st).2 := by
  intro rem
  induction rem with
  | zero => intro st; simp [NoFetchAfterStop, NoAfter, depthFirstAux]
  | succ rem ih =>
    intro st
    simp only [depthFirstAux, doCheck, intn, doFetch]
    split_ifs with h1 h2
    · simp [NoFetchAfterStop, NoAfter]
    · simp [NoFetchAfterStop, NoAfter]
    · split
      · simp [NoFetchAfterStop, NoAfter]
      · refine noAfter_cons_not_p (by simp) (noAfter_cons_not_p (by simp)
          (noAfter_cons_not_p (by simp) (noAfter_cons_not_p (by simp) ?_)))
        refine noAfter_append (noAfter_of_not_p (by simp)) ?_ (by simp)
        exact noAfter_cons_not_p (by simp) (ih _)

theorem sleepSpan_pos (cfg : Config) (hs : cfg.minSleep ≤ cfg.maxSleep) :
    0 < sleepSpan cfg := by
  simp only [sleepSpan]
  omega

theorem sleepDraw_bounds (cfg : Config) (hs : cfg.minSleep ≤ cfg.maxSleep) (r : Nat) :
    cfg.minSleep ≤ sleepDraw cfg r ∧ sleepDraw cfg r ≤ cfg.maxSleep := by
  have hk : r % sleepSpan cfg < sleepSpan cfg := Nat.mod_lt _ (sleepSpan_pos cfg hs)
  simp only [sleepDraw, sleepSpan] at hk ⊢
  omega

theorem aux_sleep_facts (cfg : Config) (env : Env) (hs : cfg.minSleep ≤ cfg.maxSleep) :
    ∀ (rem : Nat) (st : CState) (d : Int),
      Ev.sleep d ∈ (depthFirstAux cfg env rem st).2 →
        cfg.minSleep ≤ d ∧ d ≤ cfg.maxSleep ∧ ∃ r, d = sleepDraw cfg r := by
  intro rem
  induction rem with
  | zero => intro st d h; simp [depthFirstAux] at h
  | succ rem ih =>
    intro st d h
    simp only [depthFirstAux, doCheck, intn, doFetch] at h
    split_ifs at h with h1 h2
    · simp at h
    · simp at h
    · split at h
      · simp at h
      · simp at h
        rcases h with hd | hrest
        · subst hd
          have hk : env.randF (st.nRand + 1 + 1) % sleepSpan cfg < sleepSpan cfg :=
            Nat.mod_lt _ (sleepSpan_pos cfg hs)
          simp only [sleepSpan] at hk ⊢
          refine ⟨by omega, by omega, env.randF (st.nRand + 1 + 1), ?_⟩
          simp [sleepDraw, sleepSpan]
        · exact ih _ d hrest

theorem step_no_sleep {a b : List String} {t : String} {nl : List String} :
    ∀ e ∈ (Ev.snap a b :: Ev.check false :: Ev.visit t :: Ev.fetch t ::
      List.map Ev.enqueue nl), ∀ d, e ≠ Ev.sleep d := by
  intro e he d
  simp at he
  rcases he with h | h | h | h | ⟨x, _, h⟩ <;> subst h <;> simp

theorem sleepAfter_step {a b : List String} {t : String} {nl : List String}
    {d : Int} {rest : List Ev} :
    SleepAfterVisit (Ev.snap a b :: Ev.check false :: Ev.visit t :: Ev.fetch t ::
      (List.map Ev.enqueue nl ++ Ev.sleep d :: rest)) := by
  have := @sleepAfter_head
    (Ev.snap a b :: Ev.check false :: Ev.visit t :: Ev.fetch t :: List.map Ev.enqueue nl)
    (Ev.sleep d :: rest) ⟨t, by simp, by simp⟩ step_no_sleep
  simpa using this

theorem aux_sleepAfterVisit (cfg : Config) (env : Env) :
    ∀ (rem : Nat) (st : CState), SleepAfterVisit (depthFirstAux cfg env rem st).2 := by
  intro rem
  induction rem with
  | zero => intro st; exact sleepAfter_of_no_sleep (by simp [depthFirstAux])
  | succ rem ih =>
    intro st
    simp only [depthFirstAux, doCheck, intn, doFetch]
    split_ifs with h1 h2
    · exact sleepAfter_of_no_sleep (by simp)
    · exact sleepAfter_of_no_sleep (by simp)
    · split
      · exact sleepAfter_of_no_sleep (by simp)
      · exact sleepAfter_step

/-! ## seedFromRoot lemmas -/

theorem seed_visited_eq (cfg : Config) (env : Env) (st : CState) :
    (seedFromRoot cfg env st).2.1.visited = st.visited := by
  simp only [seedFromRoot, intn, doFetch]
  split <;> rfl

theorem seed_no_visit (cfg : Config) (env : Env) (st : CState) (u : String) :
    Ev.visit u ∉ (seedFromRoot cfg env st).2.2 := by
  simp only [seedFromRoot, intn, doFetch]
  split <;> simp

theorem seed_no_check (cfg : Config) (env : Env) (st : CState) (b : Bool) :
    Ev.check b ∉ (seedFromRoot cfg env st).2.2 := by
  simp only [seedFromRoot, intn, doFetch]
  split <;> simp

theorem seed_no_sleep (cfg : Config) (env : Env) (st : CState) :
    ∀ e ∈ (seedFromRoot cfg env st).2.2, ∀ d, e ≠ Ev.sleep d := by
  simp only [seedFromRoot, intn, doFetch]
  split <;> intro e he d
  · simp at he
    subst he
    simp
  · simp at he
    rcases he with h | ⟨x, _, h⟩ <;> subst h <;> simp

theorem seed_fetch_all (cfg : Config) (env : Env) (st : CState) (u : String) :
    Ev.fetch u ∈ (seedFromRoot cfg env st).2.2 →
      u = cfg.rootURLs.getD (env.randF st.nRand % cfg.rootURLs.length) "" := by
  simp only [seedFromRoot, intn, doFetch]
  split <;> intro h <;> simp at h ⊢ <;> tauto

theorem seed_fetch_mem (cfg : Config) (env : Env) (st : CState) :
    Ev.fetch (cfg.rootURLs.getD (env.randF st.nRand % cfg.rootURLs.length) "") ∈
      (seedFromRoot cfg env st).2.2 := by
  simp only [seedFromRoot, intn, doFetch]
  split <;> simp

theorem seed_enq_not_visited (cfg : Config) (env : Env) (st : CState) (u : String) :
    Ev.enqueue u ∈ (seedFromRoot cfg env st).2.2 → u ∉ st.visited := by
  simp only [seedFromRoot, intn, doFetch]
  split <;> intro h
  · simp at h
  · simp at h
    exact extractLinks_not_visited h


theorem loop_visited_iff (cfg : Config) (env : Env) :
    ∀ (fuel : Nat) (st : CState) (u : String),
      u ∈ (crawlLoop cfg env fuel st).1.visited ↔
        u ∈ st.visited ∨ Ev.visit u ∈ (crawlLoop cfg env fuel st).2 := by
  intro fuel
  induction fuel with
  | zero => intro st u; simp [crawlLoop]
  | succ fuel ih =>
    intro st u
    simp only [crawlLoop, doCheck, depthFirst]
    split_ifs with h1 h2
    · simp
    · rw [ih, aux_visited_iff, seed_visited_eq]
      simp [seed_no_visit]
      tauto
    · rw [ih, seed_visited_eq]
      simp [seed_no_visit]

theorem loop_enq_not_visited (cfg : Config) (env : Env) :
    ∀ (fuel : Nat) (st : CState) (u : String),
      Ev.enqueue u ∈ (crawlLoop cfg env fuel st).2 → u ∉ st.visited := by
  intro fuel
  induction fuel with
  | zero => intro st u h; simp [crawlLoop] at h
  | succ fuel ih =>
    intro st u h
    simp only [crawlLoop, doCheck, depthFirst] at h
    split_ifs at h with h1 h2
    · simp at h
    · simp at h
      rcases h with hseed | hdf | hloop
      · have := seed_enq_not_visited cfg env _ u hseed
        exact this
      · have := aux_enq_not_visited cfg env _ _ u hdf
        rw [seed_visited_eq] at this
        exact this
      · intro hv
        have hle := ih _ u hloop
        apply hle
        rw [aux_visited_iff, seed_visited_eq]
        exact Or.inl hv
    · simp at h
      rcases h with hseed | hloop
      · have := seed_enq_not_visited cfg env _ u hseed
        exact this
      · intro hv
        have hle := ih _ u hloop
        apply hle
        rw [seed_visited_eq]
        exact hv


theorem loop_noEnqueueAfterVisit (cfg : Config) (env : Env) :
    ∀ (fuel : Nat) (st : CState), NoEnqueueAfterVisit (crawlLoop cfg env fuel st).2 := by
  intro fuel
  induction fuel with
  | zero => intro st u; simp [crawlLoop, NoAfter]
  | succ fuel ih =>
    intro st u
    simp only [crawlLoop, doCheck, depthFirst]
    split_ifs with h1 h2
    · simp [NoAfter]
    · refine noAfter_cons_not_p (by simp) (noAfter_cons_not_p (by simp) ?_)
      refine noAfter_append (noAfter_append
        (noAfter_of_not_p ?_) (aux_noEnqueueAfterVisit cfg env _ _ u) ?_)
        (ih _ u) ?_
      · rintro e he rfl
        exact seed_no_visit cfg env _ u he
      · rintro ⟨e, he, rfl⟩
        exact absurd he (seed_no_visit cfg env _ u)
      · rintro ⟨e, he, rfl⟩ x hx rfl
        rcases List.mem_append.1 he with hs | hd
        · exact absurd hs (seed_no_visit cfg env _ u)
        · have hv : u ∈ (depthFirstAux cfg env (cfg.maxDepth - 0).toNat
              (seedFromRoot cfg env { st with nChecks := st.nChecks + 1 }).2.1).1.visited := by
            rw [aux_visited_iff]
            exact Or.inr hd
          exact loop_enq_not_visited cfg env fuel _ u hx hv
    · refine noAfter_cons_not_p (by simp) (noAfter_cons_not_p (by simp) ?_)
      refine noAfter_append (noAfter_of_not_p ?_) (ih _ u) ?_
      · rintro e he rfl
        exact seed_no_visit cfg env _ u he
      · rintro ⟨e, he, rfl⟩
        exact absurd he (seed_no_visit cfg env _ u)

theorem loop_stopped_no_fetch (cfg : Config) (env : Env) (st : CState)
    (h : env.stopF st.nChecks = true) :
    ∀ (fuel : Nat) (u : String), Ev.fetch u ∉ (crawlLoop cfg env fuel st).2 := by
  intro fuel u
  cases fuel with
  | zero => simp [crawlLoop]
  | succ fuel => simp [crawlLoop, doCheck, h]

theorem loop_noFetchAfterStop (cfg : Config) (env : Env)
    (hm : MonotoneStop env.stopF) :
    ∀ (fuel : Nat) (st : CState), NoFetchAfterStop (crawlLoop cfg env fuel st).2 := by
  intro fuel
  induction fuel with
  | zero => intro st; simp [crawlLoop, NoFetchAfterStop, NoAfter]
  | succ fuel ih =>
    intro st
    simp only [crawlLoop, doCheck, depthFirst]
    split_ifs with h1 h2
    · simp [NoFetchAfterStop, NoAfter]
    · refine noAfter_cons_not_p (by simp) (noAfter_cons_not_p (by simp) ?_)
      refine noAfter_append (noAfter_append
        (noAfter_of_not_p ?_) (aux_noFetchAfterStop cfg env _ _) ?_)
        (ih _) ?_
      · rintro e he rfl
        exact seed_no_check cfg env _ true he
      · rintro ⟨e, he, rfl⟩
        exact absurd he (seed_no_check cfg env _ true)
      · rintro ⟨e, he, rfl⟩ x hx ⟨v, rfl⟩
        rcases List.mem_append.1 he with hs | hd
        · exact absurd hs (seed_no_check cfg env _ true)
        · have hstop := aux_checkTrue_stop cfg env hm _ _ hd
          exact loop_stopped_no_fetch cfg env _ hstop fuel v hx
    · refine noAfter_cons_not_p (by simp) (noAfter_cons_not_p (by simp) ?_)
      refine noAfter_append (noAfter_of_not_p ?_) (ih _) ?_
      · rintro e he rfl
        exact seed_no_check cfg env _ true he
      · rintro ⟨e, he, rfl⟩
        exact absurd he (seed_no_check cfg env _ true)


theorem loop_sleep_facts (cfg : Config) (env : Env) (hs : cfg.minSleep ≤ cfg.maxSleep) :
    ∀ (fuel : Nat) (st : CState) (d : Int),
      Ev.sleep d ∈ (crawlLoop cfg env fuel st).2 →
        cfg.minSleep ≤ d ∧ d ≤ cfg.maxSleep ∧ ∃ r, d = sleepDraw cfg r := by
  intro fuel
  induction fuel with
  | zero => intro st d h; simp [crawlLoop] at h
  | succ fuel ih =>
    intro st d h
    simp only [crawlLoop, doCheck, depthFirst] at h
    split_ifs at h with h1 h2
    · simp at h
    · simp at h
      rcases h with hseed | hdf | hloop
      · exact absurd rfl (seed_no_sleep cfg env _ _ hseed d)
      · exact aux_sleep_facts cfg env hs _ _ d hdf
      · exact ih _ d hloop
    · simp at h
      rcases h with hseed | hloop
      · exact absurd rfl (seed_no_sleep cfg env _ _ hseed d)
      · exact ih _ d hloop

theorem sleepAfter_iter {a b : List String} {s0 t u : List Ev}
    (hs0 : ∀ e ∈ s0, ∀ d, e ≠ Ev.sleep d)
    (ht : SleepAfterVisit t) (hu : SleepAfterVisit u) :
    SleepAfterVisit (Ev.snap a b :: Ev.check false :: (s0 ++ t ++ u)) := by
  rw [List.append_assoc]
  have h2 : ∀ e ∈ (Ev.snap a b :: Ev.check false :: s0), ∀ d, e ≠ Ev.sleep d := by
    intro e he d
    rcases List.mem_cons.1 he with rfl | he1
    · simp
    rcases List.mem_cons.1 he1 with rfl | he2
    · simp
    · exact hs0 e he2 d
  have := sleepAfter_prepend_no_sleep h2 (sleepAfter_append ht hu)
  simpa using this

theorem sleepAfter_iter2 {a b : List String} {s0 u : List Ev}
    (hs0 : ∀ e ∈ s0, ∀ d, e ≠ Ev.sleep d)
    (hu : SleepAfterVisit u) :
    SleepAfterVisit (Ev.snap a b :: Ev.check false :: (s0 ++ u)) := by
  have h2 : ∀ e ∈ (Ev.snap a b :: Ev.check false :: s0), ∀ d, e ≠ Ev.sleep d := by
    intro e he d
    rcases List.mem_cons.1 he with rfl | he1
    · simp
    rcases List.mem_cons.1 he1 with rfl | he2
    · simp
    · exact hs0 e he2 d
  have := sleepAfter_prepend_no_sleep h2 hu
  simpa using this

theorem loop_sleepAfterVisit (cfg : Config) (env : Env) :
    ∀ (fuel : Nat) (st : CState), SleepAfterVisit (crawlLoop cfg env fuel st).2 := by
  intro fuel
  induction fuel with
  | zero => intro st; exact sleepAfter_of_no_sleep (by simp [crawlLoop])
  | succ fuel ih =>
    intro st
    simp only [crawlLoop, doCheck, depthFirst]
    split_ifs with h1 h2
    · exact sleepAfter_of_no_sleep (by simp)
    · exact sleepAfter_iter (seed_no_sleep cfg env _)
        (aux_sleepAfterVisit cfg env _ _) (ih _)
    · exact sleepAfter_iter2 (seed_no_sleep cfg env _) (ih _)

theorem getD_mod_mem {l : List String} (h : l ≠ []) (k : Nat) :
    l.getD (k % l.length) "" ∈ l := by
  have hl : l.length ≠ 0 := fun h0 => h (List.length_eq_zero.1 h0)
  have hlt : k % l.length < l.length := Nat.mod_lt _ (Nat.pos_of_ne_zero hl)
  simp only [List.getD_eq_getElem?_getD]
  rw [List.getElem?_eq_getElem hlt]
  exact List.getElem_mem _

theorem depthFirst_stops (cfg : Config) (env : Env) (st : CState) (depth : Int)
    (h : cfg.maxDepth ≤ depth) :
    depthFirst cfg env st depth = (st, [Ev.snap st.links st.visited]) := by
  simp only [depthFirst]
  rw [(by omega : (cfg.maxDepth - depth).toNat = 0)]
  rfl

theorem loop_fetch_roots (cfg : Config) (env : Env) (hroot : cfg.rootURLs ≠ [])
    (hd : cfg.maxDepth = 0) :
    ∀ (fuel : Nat) (st : CState) (u : String),
      Ev.fetch u ∈ (crawlLoop cfg env fuel st).2 → u ∈ cfg.rootURLs := by
  intro fuel
  induction fuel with
  | zero => intro st u h; simp [crawlLoop] at h
  | succ fuel ih =>
    intro st u h
    simp only [crawlLoop, doCheck, depthFirst, hd, sub_zero, Int.toNat_zero,
      depthFirstAux] at h
    split_ifs at h with h1 h2
    · simp at h
    · simp at h
      rcases h with hseed | hloop
      · have := seed_fetch_all cfg env _ u hseed
        subst this
        exact getD_mod_mem hroot _
      · exact ih _ u hloop
    · simp at h
      rcases h with hseed | hloop
      · have := seed_fetch_all cfg env _ u hseed
        subst this
        exact getD_mod_mem hroot _
      · exact ih _ u hloop


set_option maxRecDepth 2000

/-- Claim C1 counterexample: the claim states that a URL inserted into the
Visited Set is never fetched a second time in the session.  In this run the
root page carries two identical hrefs; both copies pass the filter (the
filter consults visited only at enqueue time, and nothing is visited yet),
so the queue holds the URL twice, and the dequeue step never re-checks
visited: after the URL is visited it is fetched twice. -/
theorem c1_counterexample :
    noDoubleFetchAfterVisitB (crawl ⟨["h://r"], ["ua"], [], 2, 0, 0, 0⟩
      ⟨fun _ => false, fun _ => 0,
       fun n _ => if n = 0 then
           some [Tok.startTag true [("href", "h://x"), ("href", "h://x")]]
         else some []⟩ 1).2 = false := by
  decide

/-- Claim C1 (corrected): what the code guarantees is the enqueue half of
the claimed invariant: a URL present in the Visited Set is never enqueued
into the Link Queue afterwards, in any crawl session. -/
theorem c1_no_reenqueue (cfg : Config) (env : Env) (fuel : Nat) :
    NoEnqueueAfterVisit (crawl cfg env fuel).2 :=
  loop_noEnqueueAfterVisit cfg env fuel initState

/-- Claim C2 counterexample: the claim states that no reachable state has a
URL both in the Link Queue and in the Visited Set.  The same duplicate-href
run as for C1 reaches a walk step whose recorded snapshot has queue and
visited set both equal to the singleton of the duplicated URL. -/
theorem c2_counterexample :
    snapsDisjointB (crawl ⟨["h://r"], ["ua"], [], 2, 0, 0, 0⟩
      ⟨fun _ => false, fun _ => 0,
       fun n _ => if n = 0 then
           some [Tok.startTag true [("href", "h://x"), ("href", "h://x")]]
         else some []⟩ 1).2 = false := by
  decide

/-- Claim C2 (corrected): disjointness holds at the moment of filtering, as
the spec's own parenthetical says: every link the extractor emits (hence
every URL entering the queue) is absent from the Visited Set consulted by
the filter at that moment. -/
theorem c2_filter_disjoint (bl vis : List String) (toks : List Tok)
    (base u : String) (h : u ∈ extractLinks bl vis toks base) : u ∉ vis :=
  extractLinks_not_visited h

theorem c2_witness :
    "h://x" ∈ extractLinks [] ["h://v"] [Tok.startTag true [("href", "h://x")]] "h://r" ∧
      "h://x" ∉ ["h://v"] :=
  ⟨by decide, c2_filter_disjoint [] ["h://v"] [Tok.startTag true [("href", "h://x")]]
    "h://r" "h://x" (by decide)⟩


/-- Claim C3: the depth-first walk returns, leaving the state unchanged and
performing no fetch, whenever its current depth is at least the configured
MaxDepth; with MaxDepth = 0 every fetch of the whole session is a root seed
fetch (a member of the configured root list). -/
theorem c3_depth_guard (cfg : Config) (env : Env) (_hmax : 0 ≤ cfg.maxDepth) :
    (∀ (st : CState) (depth : Int), cfg.maxDepth ≤ depth →
      depthFirst cfg env st depth = (st, [Ev.snap st.links st.visited])) ∧
    (cfg.maxDepth = 0 → cfg.rootURLs ≠ [] →
      ∀ (fuel : Nat) (u : String), Ev.fetch u ∈ (crawl cfg env fuel).2 →
        u ∈ cfg.rootURLs) := by
  constructor
  · intro st depth h
    exact depthFirst_stops cfg env st depth h
  · intro hd hroot fuel u h
    exact loop_fetch_roots cfg env hroot hd fuel initState u h

theorem c3_witness :
    depthFirst ⟨["h://r"], ["ua"], [], 0, 0, 0, 0⟩
      ⟨fun _ => false, fun _ => 0, fun _ _ => none⟩ initState 0 =
      (initState, [Ev.snap [] []]) :=
  (c3_depth_guard ⟨["h://r"], ["ua"], [], 0, 0, 0, 0⟩
    ⟨fun _ => false, fun _ => 0, fun _ _ => none⟩ (by decide)).1 initState 0 (by decide)

/-- Claim C4: with a monotone stop signal (as ctx.Err and isTimeoutReached
are in real time), once a stop condition check fires no further fetch is
issued, in the outer loop and in the walk; a loop started in a stopped
state issues no fetch at all; and the embedded isTimeoutReached is indeed
monotone in elapsed time. -/
theorem c4_no_fetch_after_stop (cfg : Config) (env : Env)
    (hm : MonotoneStop env.stopF) :
    (∀ (fuel : Nat) (st : CState), NoFetchAfterStop (crawlLoop cfg env fuel st).2) ∧
    (∀ (st : CState) (depth : Int), NoFetchAfterStop (depthFirst cfg env st depth).2) ∧
    (∀ (st : CState) (fuel : Nat), env.stopF st.nChecks = true →
      ∀ u, Ev.fetch u ∉ (crawlLoop cfg env fuel st).2) ∧
    (∀ (timeout e1 e2 : Nat), e1 ≤ e2 → isTimeoutReached timeout e1 = true →
      isTimeoutReached timeout e2 = true) := by
  refine ⟨loop_noFetchAfterStop cfg env hm, ?_, ?_, ?_⟩
  · intro st depth
    simp only [depthFirst]
    exact aux_noFetchAfterStop cfg env _ st
  · intro st fuel h u
    exact loop_stopped_no_fetch cfg env st h fuel u
  · intro t e1 e2 hle h
    simp only [isTimeoutReached] at h ⊢
    split_ifs at h ⊢ with h0
    simp only [decide_eq_true_eq] at h ⊢
    omega

theorem c4_witness :
    Ev.fetch "h://r" ∉ (crawlLoop ⟨["h://r"], ["ua"], [], 1, 0, 0, 0⟩
      ⟨fun _ => true, fun _ => 0, fun _ _ => none⟩ 3 initState).2 :=
  (c4_no_fetch_after_stop ⟨["h://r"], ["ua"], [], 1, 0, 0, 0⟩
    ⟨fun _ => true, fun _ => 0, fun _ _ => none⟩
    (fun _ _ _ h => h)).2.2.1 initState 3 rfl "h://r"

/-- Claim C5: fetch returns an error exactly when request construction or
the round trip (transport failure or cancellation) fails; on any response,
whatever its status code, it returns the body capped at 1 MiB, and every
body it returns has length at most 2^20. -/
theorem c5_fetch_contract :
    (∀ (nr : Except String Unit) (dr : Except String HttpResp),
      (∃ b, fetchGo nr dr = Except.ok b) ↔
        ((∃ x, nr = Except.ok x) ∧ ∃ r, dr = Except.ok r)) ∧
    (∀ resp : HttpResp, fetchGo (Except.ok ()) (Except.ok resp) =
      Except.ok (resp.body.take (1 <<< 20))) ∧
    (∀ nr dr b, fetchGo nr dr = Except.ok b → b.length ≤ 1 <<< 20) := by
  refine ⟨?_, fun resp => rfl, ?_⟩
  · intro nr dr
    cases nr <;> cases dr <;> simp [fetchGo]
  · intro nr dr b h
    cases nr <;> cases dr <;> simp [fetchGo] at h
    subst h
    rw [List.length_take]
    exact min_le_left _ _

theorem c5_witness :
    ([1, 2, 3] : List Nat).length ≤ 1 <<< 20 :=
  c5_fetch_contract.2.2 (Except.ok ()) (Except.ok ⟨404, [1, 2, 3]⟩) [1, 2, 3] rfl


/-- Claim C6: link extraction is total (it returns a plain list on every
token stream) and stops at the first unparseable point: its result on any
stream equals its result on the prefix before the first error token, and a
stream that starts with the error token yields the empty list. -/
theorem c6_extract_total (bl vis : List String) (base : String)
    (_hbase : (urlParse base).isSome = true) :
    (∀ toks : List Tok,
      extractLinks bl vis toks base = extractLinks bl vis (upToError toks) base) ∧
    (∀ rest : List Tok, extractLinks bl vis (Tok.errorTok :: rest) base = []) := by
  constructor
  · intro toks
    exact extractLinksAux_stops_at_error toks
  · intro rest
    rfl

theorem c6_witness :
    extractLinks [] [] [Tok.startTag true [("href", "h://x")], Tok.errorTok,
      Tok.startTag true [("href", "h://y")]] "h://r" =
      extractLinks [] [] (upToError [Tok.startTag true [("href", "h://x")], Tok.errorTok,
        Tok.startTag true [("href", "h://y")]]) "h://r" :=
  (c6_extract_total [] [] "h://r" (by decide)).1
    [Tok.startTag true [("href", "h://x")], Tok.errorTok,
      Tok.startTag true [("href", "h://y")]]

/-- Claim C7: accept rejects exactly when the candidate is empty, already
visited, contains a blacklisted substring, or fails the URI validation;
the four conditions form a plain disjunction, so the order in which the
source checks them cannot change the outcome. -/
theorem c7_accept_iff (bl : List String) (validURI : String → Bool)
    (vis : List String) (link : String) :
    accept bl validURI vis link = false ↔
      (link = "" ∨ link ∈ vis ∨ (∃ b ∈ bl, goContains link b = true) ∨
        validURI link = false) := by
  unfold accept
  split_ifs with h1 h2 h3
  · simp [h1]
  · simp at h2
    simp [h2]
  · simp at h3
    rcases h3 with ⟨b, hb, hgb⟩
    constructor
    · intro _
      exact Or.inr (Or.inr (Or.inl ⟨b, hb, hgb⟩))
    · intro _
      rfl
  · simp at h2 h3
    constructor
    · intro h
      exact Or.inr (Or.inr (Or.inr h))
    · intro h
      rcases h with h | h | ⟨b, hb, hgb⟩ | h
      · exact absurd h h1
      · exact absurd h h2
      · rw [h3 b hb] at hgb
        exact absurd hgb (by simp)
      · exact h

/-- Claim C8: normalize is the stated function of href and base: the
scheme-relative branch prefixes the base scheme and a colon, any other
href is parsed (empty string on failure) and resolved against the base,
and the two example resolutions of the claim hold. -/
theorem c8_normalize (base : URLRef) (href : String) :
    (hasPrefixGo href "//" = true → normalize href base = base.scheme ++ ":" ++ href) ∧
    (hasPrefixGo href "//" = false → urlParse href = none → normalize href base = "") ∧
    (∀ ref, hasPrefixGo href "//" = false → urlParse href = some ref →
      normalize href base = urlToString (resolveReference base ref)) ∧
    normalizeOpt "//b.example/y" (urlParse "https://a.example/x/") = "https://b.example/y" ∧
    normalizeOpt "z.html" (urlParse "https://a.example/x/") = "https://a.example/x/z.html" := by
  refine ⟨?_, ?_, ?_, by decide, by decide⟩
  · intro h
    simp [normalize, h]
  · intro h1 h2
    simp [normalize, h1, h2]
  · intro ref h1 h2
    simp [normalize, h1, h2]

theorem c8_witness :
    normalize "//x" ⟨"https", true, "a", "/"⟩ = "https" ++ ":" ++ "//x" :=
  (c8_normalize ⟨"https", true, "a", "/"⟩ "//x").1 (by decide)

/-- Claim C9: whenever MinSleep ≤ MaxSleep, every sleep duration of every
session lies in [MinSleep, MaxSleep] microseconds and is a value of the
source's draw expression; every value of that interval is reached by some
PRNG value; and each sleep happens only after the visit and fetch of a
dequeued URL inside a walk, never before the session's first fetch. -/
theorem c9_sleep_bounds (cfg : Config) (hs : cfg.minSleep ≤ cfg.maxSleep) :
    (∀ (env : Env) (fuel : Nat) (st : CState) (d : Int),
      Ev.sleep d ∈ (crawlLoop cfg env fuel st).2 →
        cfg.minSleep ≤ d ∧ d ≤ cfg.maxSleep ∧ ∃ r, d = sleepDraw cfg r) ∧
    (∀ v : Int, cfg.minSleep ≤ v → v ≤ cfg.maxSleep → ∃ r, sleepDraw cfg r = v) ∧
    (∀ (env : Env) (fuel : Nat), SleepAfterVisit (crawl cfg env fuel).2) := by
  refine ⟨fun env => loop_sleep_facts cfg env hs, ?_, ?_⟩
  · intro v h1 h2
    refine ⟨(v - cfg.minSleep).toNat, ?_⟩
    have hlt : (v - cfg.minSleep).toNat < sleepSpan cfg := by
      simp only [sleepSpan]
      omega
    simp only [sleepDraw, Nat.mod_eq_of_lt hlt]
    omega
  · intro env fuel
    exact loop_sleepAfterVisit cfg env fuel initState

theorem c9_witness :
    ∃ r, sleepDraw ⟨["h://r"], ["ua"], [], 1, 0, 2, 5⟩ r = 3 :=
  (c9_sleep_bounds ⟨["h://r"], ["ua"], [], 1, 0, 2, 5⟩ (by decide)).2.1 3 (by decide) (by decide)

/-- Claim C10: the root segment of the outer loop leaves the visited set
unchanged and records no insertion into it; it always fetches the picked
root, whatever the state (in particular the visited set is not consulted);
across a whole loop run the visited set grows exactly by the URLs whose
insertion the walk records; and a session whose root page always fails
still fetches the same root on every iteration, even from a state in which
that root is already visited. -/
theorem c10_root_frame (cfg : Config) (env : Env) :
    (∀ st : CState, (seedFromRoot cfg env st).2.1.visited = st.visited) ∧
    (∀ (st : CState) (u : String), Ev.visit u ∉ (seedFromRoot cfg env st).2.2) ∧
    (∀ st : CState,
      Ev.fetch (cfg.rootURLs.getD (env.randF st.nRand % cfg.rootURLs.length) "") ∈
        (seedFromRoot cfg env st).2.2) ∧
    (∀ (fuel : Nat) (st : CState) (u : String),
      u ∈ (crawlLoop cfg env fuel st).1.visited ↔
        u ∈ st.visited ∨ Ev.visit u ∈ (crawlLoop cfg env fuel st).2) ∧
    (crawlLoop ⟨["h://r"], ["ua"], [], 0, 0, 0, 0⟩
        ⟨fun _ => false, fun _ => 0, fun _ _ => none⟩ 2
        ⟨[], ["h://r"], 0, 0, 0⟩).2.countP
          (fun e => decide (e = Ev.fetch "h://r")) = 2 := by
  refine ⟨seed_visited_eq cfg env, seed_no_visit cfg env, seed_fetch_mem cfg env,
    loop_visited_iff cfg env, by decide⟩

end Urusai
